import Mathlib

/-!
Verification of the flow graph engine of the chatbot flow builder.

The embedding below follows src/src/App.tsx (the FlowBuilder component:
state hooks, the callbacks onAddTextNode, onConnect, onDrop, onNodeClick,
updateNodeLabel, handleReset, handleSave) and src/src/utils/validators.ts
(validateFlow). React state updates become a pure step function on an
explicit engine state; each callback becomes a function from state to
state. Node and edge removal, which the component delegates to the
canvas library default change handlers, are modelled as removal of the
named node or edge from the corresponding store list.
-/

/-- Node identity. The source generates a fresh id as the string
interpolation of a timestamp (Date.now) and the current level counter,
joined by a dash. A decimal numeral contains no dash, so that string
determines the pair (timestamp, level) and conversely; identities are
therefore modelled as the pair itself, compared componentwise. -/
structure NodeId where
  timestamp : Nat
  level : Nat
deriving DecidableEq

/-- Payload of a text node: the TextNodeData interface of App.tsx. -/
structure TextNodeData where
  label : String
  level : Nat
deriving DecidableEq

/-- A node of the flow graph. The pixel position assigned at creation is
omitted: it is float-valued layout data that no engine operation reads. -/
structure FlowNode where
  id : NodeId
  data : TextNodeData
deriving DecidableEq

/-- A directed edge, restricted to the two fields the engine reads. -/
structure FlowEdge where
  source : NodeId
  target : NodeId
deriving DecidableEq

/-- The React state of the FlowBuilder component: the node store, the
edge store, the selected node, the error banner, the level counter used
for id generation, and the success banner. -/
structure EngineState where
  nodes : List FlowNode
  edges : List FlowEdge
  selectedNodeId : Option NodeId
  error : Option String
  level : Nat
  successMessage : Option String
deriving DecidableEq

/-- The initial component state: empty stores, no selection, no banners,
level counter 1. -/
def initState : EngineState :=
  { nodes := [], edges := [], selectedNodeId := none, error := none,
    level := 1, successMessage := none }

/-- The addEdge helper of the canvas library: the edge is appended
unless an identical connection (same source and target) is already
stored, in which case the edge list is returned unchanged. -/
def addEdge (e : FlowEdge) (eds : List FlowEdge) : List FlowEdge :=
  if eds.any (fun x => x.source == e.source && x.target == e.target)
  then eds else eds ++ [e]

/-- onAddTextNode: appends a node whose id is built from the timestamp
and the current level, with the given label, and increments the level. -/
def onAddTextNode (timestamp : Nat) (label : String) (s : EngineState) :
    EngineState :=
  { s with
    nodes := s.nodes ++
      [{ id := { timestamp := timestamp, level := s.level },
         data := { label := label, level := s.level } }],
    level := s.level + 1 }

/-- onDrop: appends a node exactly like onAddTextNode but with the fixed
label of a freshly dropped node, and increments the level. -/
def onDrop (timestamp : Nat) (s : EngineState) : EngineState :=
  { s with
    nodes := s.nodes ++
      [{ id := { timestamp := timestamp, level := s.level },
         data := { label := "New Text Message", level := s.level } }],
    level := s.level + 1 }

/-- onConnect: if the source already has an outgoing edge the edge set
is untouched and the error banner is set; otherwise the edge is added
through addEdge. -/
def onConnect (src tgt : NodeId) (s : EngineState) : EngineState :=
  if s.edges.any (fun e => e.source == src) then
    { s with error := some "Only one outgoing connection allowed per node." }
  else
    { s with edges := addEdge { source := src, target := tgt } s.edges }

/-- updateNodeLabel: replaces the label of the node whose id equals the
selected id, leaving every other field of every node unchanged. -/
def updateNodeLabel (label : String) (s : EngineState) : EngineState :=
  { s with nodes :=
      s.nodes.map (fun node =>
        if some node.id == s.selectedNodeId then
          { node with data := { node.data with label := label } }
        else node) }

/-- handleReset: clears both stores, the selection, both banners, and
puts the level counter back to 1. -/
def handleReset (_s : EngineState) : EngineState :=
  { nodes := [], edges := [], selectedNodeId := none, error := none,
    level := 1, successMessage := none }

/-- Outgoing neighbors of a node: the adjacency list handleSave builds,
namely the targets of the stored edges with the given source, in store
order. -/
def neighbors (edges : List FlowEdge) (current : NodeId) : List NodeId :=
  (edges.filter (fun e => e.source == current)).map (fun e => e.target)

/-- The BFS while loop of handleSave. The queue and the visited set are
lists; the set records first insertion order and is only queried for
membership. The fuel argument is an embedding artifact standing for the
absent termination metric of the source loop; every use below passes
enough fuel for the loop to reach an empty queue on the graphs the
engine can build (edge stores with pairwise distinct sources), which is
proved in the closure and soundness lemmas further down
(bfsLoop_closed and bfsLoop_visited_iff). -/
def bfsLoop (edges : List FlowEdge) :
    Nat → List NodeId → List NodeId → List NodeId
  | 0, _, visited => visited
  | _ + 1, [], visited => visited
  | fuel + 1, current :: rest, visited =>
    let visited' := if visited.contains current then visited
                    else visited ++ [current]
    let pushes := (neighbors edges current).filter
                    (fun n => !visited'.contains n)
    bfsLoop edges fuel (rest ++ pushes) visited'

/-- Structured outcome of save-time validation, read off the three exit
paths of handleSave. -/
inductive ValidationResult where
  | Valid : ValidationResult
  | NoRoot : ValidationResult
  | Disconnected (count : Nat) (ids : List NodeId) : ValidationResult
deriving DecidableEq

/-- The decision core of handleSave: trivially valid below two nodes;
otherwise the first node id that never occurs as a target is the root,
no such id means NoRoot, and otherwise the ids left unvisited by the
BFS from the root are reported with their count. -/
def validate (nodes : List FlowNode) (edges : List FlowEdge) :
    ValidationResult :=
  if nodes.length ≤ 1 then .Valid
  else
    let allNodeIds := nodes.map (fun n => n.id)
    let targetNodeIds := edges.map (fun e => e.target)
    match allNodeIds.find? (fun id => !targetNodeIds.contains id) with
    | none => .NoRoot
    | some rootNode =>
      let visited := bfsLoop edges (nodes.length + edges.length + 1)
                       [rootNode] []
      let disconnectedNodes := allNodeIds.filter
                                 (fun id => !visited.contains id)
      if 0 < disconnectedNodes.length then
        .Disconnected disconnectedNodes.length disconnectedNodes
      else .Valid

/-- handleSave: runs the validation on the current stores and sets the
banners accordingly; the stores themselves are never written. -/
def handleSave (s : EngineState) : EngineState :=
  match validate s.nodes s.edges with
  | .Valid =>
    { s with error := none, successMessage := some "Flow saved successfully!" }
  | .NoRoot =>
    { s with error := some "Cannot save Flow: No root node found." }
  | .Disconnected count _ =>
    { s with error := some ("Cannot save Flow: " ++ toString count ++
        " node(s) are not connected to the main flow.") }

/-- validateFlow of src/src/utils/validators.ts: true when at most one
node id fails to occur as an edge target. -/
def validateFlow (nodes : List FlowNode) (edges : List FlowEdge) : Bool :=
  let targetNodeIds := edges.map (fun e => e.target)
  let isolatedNodes := nodes.filter (fun n => !targetNodeIds.contains n.id)
  isolatedNodes.length ≤ 1

/-- The operations an external caller can request from the engine. -/
inductive Op where
  | addText (timestamp : Nat) (label : String) : Op
  | drop (timestamp : Nat) : Op
  | connect (src tgt : NodeId) : Op
  | selectNode (id : NodeId) : Op
  | deselect : Op
  | editLabel (label : String) : Op
  | removeNode (id : NodeId) : Op
  | removeEdge (src tgt : NodeId) : Op
  | reset : Op
  | save : Op

/-- One engine step: dispatches an operation to its handler. Selection
is onNodeClick and the back button; removal is the default change
handler of the canvas library dropping the named node or edge. -/
def applyOp (s : EngineState) : Op → EngineState
  | .addText t label => onAddTextNode t label s
  | .drop t => onDrop t s
  | .connect src tgt => onConnect src tgt s
  | .selectNode id => { s with selectedNodeId := some id }
  | .deselect => { s with selectedNodeId := none }
  | .editLabel label => updateNodeLabel label s
  | .removeNode id => { s with nodes := s.nodes.filter (fun n => !(n.id == id)) }
  | .removeEdge src tgt =>
    { s with edges :=
        s.edges.filter (fun e => !(e.source == src && e.target == tgt)) }
  | .reset => handleReset s
  | .save => handleSave s

/-- States reachable from the initial state by engine operations. -/
inductive Reachable : EngineState → Prop
  | init : Reachable initState
  | step (s : EngineState) (op : Op) : Reachable s → Reachable (applyOp s op)

/-- Graph reachability along stored edges, source to target. -/
inductive Reaches (edges : List FlowEdge) : NodeId → NodeId → Prop
  | refl (a : NodeId) : Reaches edges a a
  | tail {a b c : NodeId} : Reaches edges a b →
      ({ source := b, target := c } : FlowEdge) ∈ edges → Reaches edges a c

/-- The edge store invariant: every stored source is distinct, in other
words every node has at most one outgoing edge. -/
@[reducible] def SourcesDistinct (edges : List FlowEdge) : Prop :=
  edges.Pairwise (fun a b => a.source ≠ b.source)

/-- The node store invariant backing id uniqueness: every stored level
is below the current counter, and stored levels are pairwise distinct. -/
@[reducible] def LevelsFresh (s : EngineState) : Prop :=
  (∀ n ∈ s.nodes, n.id.level < s.level) ∧
  s.nodes.Pairwise (fun a b => a.id.level ≠ b.id.level)

/-! ### Helper lemmas -/

theorem contains_true_iff_mem {α : Type} [BEq α] [LawfulBEq α]
    {l : List α} {a : α} : l.contains a = true ↔ a ∈ l := by
  simp

theorem contains_false_iff_not_mem {α : Type} [BEq α] [LawfulBEq α]
    {l : List α} {a : α} : l.contains a = false ↔ a ∉ l := by
  simp

/-! ### C4 -/

/-- C4: for every graph whose node count is 0 or 1, validate returns
Valid, regardless of the contents of the edge store. -/
theorem validate_trivial_small (nodes : List FlowNode) (edges : List FlowEdge)
    (h : nodes.length ≤ 1) : validate nodes edges = .Valid := by
  unfold validate
  rw [if_pos h]

/-- Witness for C4: a single node together with an edge store holding a
self loop and a stray edge still validates. -/
theorem validate_trivial_small_witness :
    ([{ id := ⟨7, 1⟩, data := ⟨"hello", 1⟩ }] : List FlowNode).length ≤ 1 ∧
    validate [{ id := ⟨7, 1⟩, data := ⟨"hello", 1⟩ }]
      [{ source := ⟨7, 1⟩, target := ⟨7, 1⟩ },
       { source := ⟨0, 2⟩, target := ⟨0, 3⟩ }] = .Valid :=
  ⟨by decide, validate_trivial_small _ _ (by decide)⟩

/-! ### C8 -/

/-- C8: resetting from any engine state, reachable or not, yields the
empty node store, the empty edge store, the level counter back at its
initial value 1, and in fact exactly the initial state; reset is a total
function, hence never fails. -/
theorem reset_yields_initial (s : EngineState) :
    (applyOp s .reset).nodes = [] ∧ (applyOp s .reset).edges = [] ∧
    (applyOp s .reset).level = 1 ∧ applyOp s .reset = initState :=
  ⟨rfl, rfl, rfl, rfl⟩

/-! ### C2 -/

/-- C2: with at least two nodes, if every node id occurs as the target
of some stored edge then there is no root candidate and validation
reports NoRoot. -/
theorem validate_no_root_of_all_targets (nodes : List FlowNode)
    (edges : List FlowEdge) (h2 : 2 ≤ nodes.length)
    (hall : ∀ n ∈ nodes, n.id ∈ edges.map (fun e => e.target)) :
    validate nodes edges = .NoRoot := by
  unfold validate
  rw [if_neg (by omega)]
  have hfind : (nodes.map (fun n => n.id)).find?
      (fun id => !(edges.map (fun e => e.target)).contains id) = none := by
    rw [List.find?_eq_none]
    intro x hx
    rw [List.mem_map] at hx
    obtain ⟨n, hn, rfl⟩ := hx
    simp [hall n hn]
  simp only [hfind]

/-- Witness for C2, scenario C: two nodes in a two cycle, every node has
an incoming edge, validation reports NoRoot. -/
theorem validate_no_root_of_all_targets_witness :
    2 ≤ ([{ id := ⟨0, 1⟩, data := ⟨"a", 1⟩ },
          { id := ⟨0, 2⟩, data := ⟨"b", 2⟩ }] : List FlowNode).length ∧
    (∀ n ∈ ([{ id := ⟨0, 1⟩, data := ⟨"a", 1⟩ },
             { id := ⟨0, 2⟩, data := ⟨"b", 2⟩ }] : List FlowNode),
      n.id ∈ ([{ source := ⟨0, 1⟩, target := ⟨0, 2⟩ },
               { source := ⟨0, 2⟩, target := ⟨0, 1⟩ }] : List FlowEdge).map
                (fun e => e.target)) ∧
    validate
      [{ id := ⟨0, 1⟩, data := ⟨"a", 1⟩ }, { id := ⟨0, 2⟩, data := ⟨"b", 2⟩ }]
      [{ source := ⟨0, 1⟩, target := ⟨0, 2⟩ },
       { source := ⟨0, 2⟩, target := ⟨0, 1⟩ }] = .NoRoot :=
  ⟨by decide, by decide,
    validate_no_root_of_all_targets _ _ (by decide) (by decide)⟩

/-! ### C5 -/

/-- C5 is refuted: onConnect never checks that the endpoints exist in
the node store. On the initial state, whose node store is empty, a
connect call between two absent ids still creates the edge instead of
failing and leaving the edge set unchanged. -/
theorem connect_missing_endpoint_counterexample :
    ¬ (∀ (s : EngineState) (src tgt : NodeId),
        (src ∉ s.nodes.map (fun n => n.id) ∨
         tgt ∉ s.nodes.map (fun n => n.id)) →
        (applyOp s (.connect src tgt)).edges = s.edges) := by
  intro h
  have h0 := h initState ⟨0, 1⟩ ⟨0, 2⟩ (Or.inl (by decide))
  exact absurd h0 (by decide)

/-- C5 amended: connect performs no endpoint existence check and has no
NotFound outcome; a connect whose source or target id is absent from the
node store is treated like any other connect, so whenever the source has
no outgoing stored edge the edge is appended anyway. -/
theorem connect_ignores_missing_endpoints (s : EngineState) (src tgt : NodeId)
    (_hmiss : src ∉ s.nodes.map (fun n => n.id) ∨
             tgt ∉ s.nodes.map (fun n => n.id))
    (hfree : ∀ e ∈ s.edges, e.source ≠ src) :
    applyOp s (.connect src tgt) =
      { s with edges := s.edges ++ [{ source := src, target := tgt }] } := by
  show onConnect src tgt s = _
  unfold onConnect
  have hany : ¬ (s.edges.any fun e => e.source == src) = true := by
    rw [List.any_eq_true]
    rintro ⟨e, he, hb⟩
    exact hfree e he (by simpa using hb)
  rw [if_neg hany]
  unfold addEdge
  have hany2 : ¬ (s.edges.any fun x =>
      x.source == ({ source := src, target := tgt } : FlowEdge).source &&
      x.target == ({ source := src, target := tgt } : FlowEdge).target) = true := by
    rw [List.any_eq_true]
    rintro ⟨e, he, hb⟩
    rw [Bool.and_eq_true] at hb
    exact hfree e he (by simpa using hb.1)
  rw [if_neg hany2]

/-- Witness for C5 amended: connecting two ids on the empty initial
state creates the edge. -/
theorem connect_ignores_missing_endpoints_witness :
    ((⟨0, 1⟩ : NodeId) ∉ initState.nodes.map (fun n => n.id) ∨
     (⟨0, 2⟩ : NodeId) ∉ initState.nodes.map (fun n => n.id)) ∧
    (∀ e ∈ initState.edges, e.source ≠ ⟨0, 1⟩) ∧
    applyOp initState (.connect ⟨0, 1⟩ ⟨0, 2⟩) =
      { initState with edges := [{ source := ⟨0, 1⟩, target := ⟨0, 2⟩ }] } :=
  ⟨Or.inl (by decide), by decide,
    connect_ignores_missing_endpoints _ _ _ (Or.inl (by decide)) (by decide)⟩

/-! ### C9 -/

/-- C9: editing the selected node content is idempotent, and a single
edit leaves every node id and sequence level untouched. -/
theorem editNodeContent_idempotent (s : EngineState) (id : NodeId) (c : String)
    (_hsel : s.selectedNodeId = some id)
    (_hmem : id ∈ s.nodes.map (fun n => n.id)) :
    applyOp (applyOp s (.editLabel c)) (.editLabel c) =
      applyOp s (.editLabel c) ∧
    (applyOp s (.editLabel c)).nodes.map (fun n => (n.id, n.data.level)) =
      s.nodes.map (fun n => (n.id, n.data.level)) := by
  constructor
  · show updateNodeLabel c (updateNodeLabel c s) = updateNodeLabel c s
    unfold updateNodeLabel
    simp only [List.map_map]
    congr 1
    apply List.map_congr_left
    intro a _
    by_cases h : (some a.id == s.selectedNodeId) = true
    · simp [Function.comp, h]
    · simp [Function.comp, h]
  · show (updateNodeLabel c s).nodes.map _ = _
    unfold updateNodeLabel
    simp only [List.map_map]
    apply List.map_congr_left
    intro a _
    by_cases h : (some a.id == s.selectedNodeId) = true
    · simp [Function.comp, h]
    · simp [Function.comp, h]

/-- Witness for C9 at a one node store with that node selected. -/
theorem editNodeContent_idempotent_witness :
    ({ nodes := [{ id := ⟨3, 1⟩, data := ⟨"old", 1⟩ }], edges := [],
       selectedNodeId := some ⟨3, 1⟩, error := none, level := 2,
       successMessage := none } : EngineState).selectedNodeId =
        some ⟨3, 1⟩ ∧
    (⟨3, 1⟩ : NodeId) ∈
      ({ nodes := [{ id := ⟨3, 1⟩, data := ⟨"old", 1⟩ }], edges := [],
         selectedNodeId := some ⟨3, 1⟩, error := none, level := 2,
         successMessage := none } : EngineState).nodes.map (fun n => n.id) ∧
    applyOp
      (applyOp
        ({ nodes := [{ id := ⟨3, 1⟩, data := ⟨"old", 1⟩ }], edges := [],
           selectedNodeId := some ⟨3, 1⟩, error := none, level := 2,
           successMessage := none } : EngineState) (.editLabel "new"))
      (.editLabel "new") =
      applyOp
        ({ nodes := [{ id := ⟨3, 1⟩, data := ⟨"old", 1⟩ }], edges := [],
           selectedNodeId := some ⟨3, 1⟩, error := none, level := 2,
           successMessage := none } : EngineState) (.editLabel "new") :=
  ⟨rfl, by decide,
    (editNodeContent_idempotent _ ⟨3, 1⟩ "new" rfl (by decide)).1⟩

/-! ### C10 -/

/-- C10: the standalone helper validateFlow accepts exactly the graphs
in which at most one node fails to occur as an edge target, a criterion
different from the save time validator: the two node cycle passes
validateFlow but is rejected as NoRoot at save time, while a three node
graph with two root candidates fails validateFlow. -/
theorem validateFlow_counts_root_candidates :
    (∀ (nodes : List FlowNode) (edges : List FlowEdge),
      validateFlow nodes edges = true ↔
        nodes.countP
          (fun n => decide (n.id ∉ edges.map (fun e => e.target))) ≤ 1) ∧
    validateFlow
      [{ id := ⟨0, 1⟩, data := ⟨"a", 1⟩ }, { id := ⟨0, 2⟩, data := ⟨"b", 2⟩ }]
      [{ source := ⟨0, 1⟩, target := ⟨0, 2⟩ },
       { source := ⟨0, 2⟩, target := ⟨0, 1⟩ }] = true ∧
    validate
      [{ id := ⟨0, 1⟩, data := ⟨"a", 1⟩ }, { id := ⟨0, 2⟩, data := ⟨"b", 2⟩ }]
      [{ source := ⟨0, 1⟩, target := ⟨0, 2⟩ },
       { source := ⟨0, 2⟩, target := ⟨0, 1⟩ }] = .NoRoot ∧
    validateFlow
      [{ id := ⟨0, 1⟩, data := ⟨"a", 1⟩ }, { id := ⟨0, 2⟩, data := ⟨"b", 2⟩ },
       { id := ⟨0, 3⟩, data := ⟨"c", 3⟩ }]
      [{ source := ⟨0, 1⟩, target := ⟨0, 3⟩ }] = false := by
  refine ⟨?_, by decide, by decide, by decide⟩
  intro nodes edges
  unfold validateFlow
  rw [List.countP_eq_length_filter]
  have hcong : nodes.filter
        (fun n => decide (n.id ∉ edges.map (fun e => e.target))) =
      nodes.filter
        (fun n => !(edges.map (fun e => e.target)).contains n.id) := by
    apply List.filter_congr
    intro n _
    by_cases h : n.id ∈ edges.map (fun e => e.target)
    · simp [h]
    · simp [h]
  rw [hcong]
  simp

/-! ### Invariant preservation -/

/-- Every operation preserves pairwise distinctness of edge sources. -/
theorem applyOp_sources_distinct (s : EngineState) (op : Op)
    (h : SourcesDistinct s.edges) : SourcesDistinct (applyOp s op).edges := by
  cases op with
  | connect src tgt =>
    show SourcesDistinct (onConnect src tgt s).edges
    unfold onConnect
    by_cases hc : (s.edges.any fun e => e.source == src) = true
    · rw [if_pos hc]
      exact h
    · rw [if_neg hc]
      show SourcesDistinct (addEdge { source := src, target := tgt } s.edges)
      unfold addEdge
      by_cases hdup : (s.edges.any fun x =>
          x.source == ({ source := src, target := tgt } : FlowEdge).source &&
          x.target == ({ source := src, target := tgt } : FlowEdge).target) =
          true
      · rw [if_pos hdup]
        exact h
      · rw [if_neg hdup]
        rw [SourcesDistinct, List.pairwise_append]
        refine ⟨h, List.pairwise_singleton _ _, ?_⟩
        intro a ha b hb
        rw [List.mem_singleton] at hb
        subst hb
        intro hab
        apply hc
        rw [List.any_eq_true]
        exact ⟨a, ha, by simp [hab]⟩
  | removeEdge src tgt => exact List.Pairwise.sublist (List.filter_sublist _) h
  | reset => exact List.Pairwise.nil
  | save =>
    show SourcesDistinct (handleSave s).edges
    unfold handleSave
    split <;> exact h
  | addText t label => exact h
  | drop t => exact h
  | selectNode id => exact h
  | deselect => exact h
  | editLabel label => exact h
  | removeNode id => exact h

/-- Every operation preserves the level freshness invariant. -/
theorem applyOp_levels_fresh (s : EngineState) (op : Op)
    (h : LevelsFresh s) : LevelsFresh (applyOp s op) := by
  obtain ⟨hb, hp⟩ := h
  cases op with
  | addText t label =>
    show LevelsFresh (onAddTextNode t label s)
    unfold onAddTextNode
    constructor
    · intro n hn
      rw [List.mem_append] at hn
      rcases hn with hn | hn
      · exact Nat.lt_succ_of_lt (hb n hn)
      · rw [List.mem_singleton] at hn
        subst hn
        exact Nat.lt_succ_self _
    · rw [List.pairwise_append]
      refine ⟨hp, List.pairwise_singleton _ _, ?_⟩
      intro a ha b hbm
      rw [List.mem_singleton] at hbm
      subst hbm
      exact Nat.ne_of_lt (hb a ha)
  | drop t =>
    show LevelsFresh (onDrop t s)
    unfold onDrop
    constructor
    · intro n hn
      rw [List.mem_append] at hn
      rcases hn with hn | hn
      · exact Nat.lt_succ_of_lt (hb n hn)
      · rw [List.mem_singleton] at hn
        subst hn
        exact Nat.lt_succ_self _
    · rw [List.pairwise_append]
      refine ⟨hp, List.pairwise_singleton _ _, ?_⟩
      intro a ha b hbm
      rw [List.mem_singleton] at hbm
      subst hbm
      exact Nat.ne_of_lt (hb a ha)
  | connect src tgt =>
    show LevelsFresh (onConnect src tgt s)
    unfold onConnect
    split <;> exact ⟨hb, hp⟩
  | editLabel label =>
    show LevelsFresh (updateNodeLabel label s)
    unfold updateNodeLabel
    constructor
    · intro n hn
      rw [List.mem_map] at hn
      obtain ⟨m, hm, rfl⟩ := hn
      by_cases hc : (some m.id == s.selectedNodeId) = true
      · simp only [hc, if_true]
        exact hb m hm
      · simp only [hc, if_false]
        exact hb m hm
    · rw [List.pairwise_map]
      apply hp.imp
      intro a b hab
      by_cases hca : (some a.id == s.selectedNodeId) = true <;>
        by_cases hcb : (some b.id == s.selectedNodeId) = true <;>
          simp [hca, hcb, hab]
  | removeNode id =>
    constructor
    · intro n hn
      exact hb n (List.mem_of_mem_filter hn)
    · exact List.Pairwise.sublist (List.filter_sublist _) hp
  | removeEdge src tgt => exact ⟨hb, hp⟩
  | selectNode id => exact ⟨hb, hp⟩
  | deselect => exact ⟨hb, hp⟩
  | reset => exact ⟨fun n hn => absurd hn (List.not_mem_nil n), List.Pairwise.nil⟩
  | save =>
    show LevelsFresh (handleSave s)
    unfold handleSave
    split <;> exact ⟨hb, hp⟩

/-- Every reachable state satisfies the level freshness invariant. -/
theorem reachable_levels_fresh (s : EngineState) (h : Reachable s) :
    LevelsFresh s := by
  induction h with
  | init => exact ⟨fun n hn => absurd hn (List.not_mem_nil n), List.Pairwise.nil⟩
  | step s' op _ ih => exact applyOp_levels_fresh s' op ih

/-! ### C1 -/

/-- C1: across every operation sequence the stored edge sources stay
pairwise distinct, and a connect whose source already has an outgoing
edge is rejected with the duplicate outgoing error while the edge set
stays exactly as it was. -/
theorem connect_duplicate_rejected :
    (∀ s : EngineState, Reachable s → SourcesDistinct s.edges) ∧
    (∀ (s : EngineState) (src tgt : NodeId),
      (∃ e ∈ s.edges, e.source = src) →
      (applyOp s (.connect src tgt)).edges = s.edges ∧
      (applyOp s (.connect src tgt)).error =
        some "Only one outgoing connection allowed per node.") := by
  constructor
  · intro s h
    induction h with
    | init => exact List.Pairwise.nil
    | step s' op _ ih => exact applyOp_sources_distinct s' op ih
  · rintro s src tgt ⟨e, he, hes⟩
    have hany : (s.edges.any fun e => e.source == src) = true := by
      rw [List.any_eq_true]
      exact ⟨e, he, by simp [hes]⟩
    constructor
    · show (onConnect src tgt s).edges = s.edges
      unfold onConnect
      rw [if_pos hany]
    · show (onConnect src tgt s).error = _
      unfold onConnect
      rw [if_pos hany]

/-- Witness for C1, scenario D: connect twice from the same source; the
second call is rejected, the edge set still holds only the first edge,
and the invariant holds at the reached state. -/
theorem connect_duplicate_rejected_witness :
    Reachable (applyOp initState (.connect ⟨0, 1⟩ ⟨0, 2⟩)) ∧
    SourcesDistinct (applyOp initState (.connect ⟨0, 1⟩ ⟨0, 2⟩)).edges ∧
    (∃ e ∈ (applyOp initState (.connect ⟨0, 1⟩ ⟨0, 2⟩)).edges,
      e.source = ⟨0, 1⟩) ∧
    (applyOp (applyOp initState (.connect ⟨0, 1⟩ ⟨0, 2⟩))
        (.connect ⟨0, 1⟩ ⟨0, 3⟩)).edges =
      (applyOp initState (.connect ⟨0, 1⟩ ⟨0, 2⟩)).edges ∧
    (applyOp (applyOp initState (.connect ⟨0, 1⟩ ⟨0, 2⟩))
        (.connect ⟨0, 1⟩ ⟨0, 3⟩)).error =
      some "Only one outgoing connection allowed per node." :=
  ⟨Reachable.step _ _ Reachable.init,
   connect_duplicate_rejected.1 _ (Reachable.step _ _ Reachable.init),
   ⟨{ source := ⟨0, 1⟩, target := ⟨0, 2⟩ }, by decide, rfl⟩,
   (connect_duplicate_rejected.2 _ ⟨0, 1⟩ ⟨0, 3⟩
     ⟨{ source := ⟨0, 1⟩, target := ⟨0, 2⟩ }, by decide, rfl⟩).1,
   (connect_duplicate_rejected.2 _ ⟨0, 1⟩ ⟨0, 3⟩
     ⟨{ source := ⟨0, 1⟩, target := ⟨0, 2⟩ }, by decide, rfl⟩).2⟩

/-! ### C6 -/

/-- C6: in every reachable state the stored node ids are pairwise
distinct, and both add node operations always succeed by appending a
node whose freshly generated id differs from every stored id. -/
theorem node_ids_pairwise_distinct :
    (∀ s : EngineState, Reachable s →
      s.nodes.Pairwise (fun a b => a.id ≠ b.id)) ∧
    (∀ (s : EngineState) (t : Nat) (label : String), Reachable s →
      (applyOp s (.addText t label)).nodes = s.nodes ++
        [{ id := ⟨t, s.level⟩, data := ⟨label, s.level⟩ }] ∧
      ({ timestamp := t, level := s.level } : NodeId) ∉
        s.nodes.map (fun n => n.id)) ∧
    (∀ (s : EngineState) (t : Nat), Reachable s →
      (applyOp s (.drop t)).nodes = s.nodes ++
        [{ id := ⟨t, s.level⟩, data := ⟨"New Text Message", s.level⟩ }] ∧
      ({ timestamp := t, level := s.level } : NodeId) ∉
        s.nodes.map (fun n => n.id)) := by
  refine ⟨?_, ?_, ?_⟩
  · intro s h
    apply (reachable_levels_fresh s h).2.imp
    intro a b hab heq
    exact hab (congrArg NodeId.level heq)
  · intro s t label h
    refine ⟨rfl, ?_⟩
    intro hmem
    rw [List.mem_map] at hmem
    obtain ⟨n, hn, hid⟩ := hmem
    have := (reachable_levels_fresh s h).1 n hn
    rw [hid] at this
    exact Nat.lt_irrefl _ this
  · intro s t h
    refine ⟨rfl, ?_⟩
    intro hmem
    rw [List.mem_map] at hmem
    obtain ⟨n, hn, hid⟩ := hmem
    have := (reachable_levels_fresh s h).1 n hn
    rw [hid] at this
    exact Nat.lt_irrefl _ this

/-- Witness for C6: after one add the state is reachable, its node ids
are pairwise distinct, and a second add at any timestamp, even an equal
one, appends a node with a fresh id. -/
theorem node_ids_pairwise_distinct_witness :
    Reachable (applyOp initState (.addText 5 "x")) ∧
    (applyOp initState (.addText 5 "x")).nodes.Pairwise
      (fun a b => a.id ≠ b.id) ∧
    (applyOp (applyOp initState (.addText 5 "x")) (.addText 5 "y")).nodes =
      (applyOp initState (.addText 5 "x")).nodes ++
        [{ id := ⟨5, 2⟩, data := ⟨"y", 2⟩ }] ∧
    ({ timestamp := 5, level := 2 } : NodeId) ∉
      (applyOp initState (.addText 5 "x")).nodes.map (fun n => n.id) :=
  ⟨Reachable.step _ _ Reachable.init,
   node_ids_pairwise_distinct.1 _ (Reachable.step _ _ Reachable.init),
   (node_ids_pairwise_distinct.2.1 _ 5 "y"
     (Reachable.step _ _ Reachable.init)).1,
   (node_ids_pairwise_distinct.2.1 _ 5 "y"
     (Reachable.step _ _ Reachable.init)).2⟩

/-! ### BFS analysis -/

theorem Reaches.trans {edges : List FlowEdge} {a b c : NodeId}
    (h1 : Reaches edges a b) (h2 : Reaches edges b c) :
    Reaches edges a c := by
  induction h2 with
  | refl => exact h1
  | tail _ he ih => exact Reaches.tail ih he

theorem Reaches.eq_or_mem_targets {edges : List FlowEdge} {a n : NodeId}
    (h : Reaches edges a n) :
    n = a ∨ n ∈ edges.map (fun e => e.target) := by
  induction h with
  | refl => exact Or.inl rfl
  | tail _ h2 _ => exact Or.inr (List.mem_map.mpr ⟨_, h2, rfl⟩)

theorem edge_of_mem_neighbors {edges : List FlowEdge} {a n : NodeId}
    (h : n ∈ neighbors edges a) :
    ({ source := a, target := n } : FlowEdge) ∈ edges := by
  unfold neighbors at h
  rw [List.mem_map] at h
  obtain ⟨e, he, rfl⟩ := h
  rw [List.mem_filter] at he
  obtain ⟨he, hsrc⟩ := he
  have hs : e.source = a := by simpa using hsrc
  cases e
  simp only at hs
  subst hs
  exact he

theorem neighbors_eq_of_mem {edges : List FlowEdge} {e : FlowEdge}
    (hd : SourcesDistinct edges) (he : e ∈ edges) :
    neighbors edges e.source = [e.target] := by
  induction edges with
  | nil => cases he
  | cons x xs ih =>
    rw [SourcesDistinct, List.pairwise_cons] at hd
    rcases List.mem_cons.mp he with rfl | hmem
    · have hnil : xs.filter (fun e2 => e2.source == e.source) = [] := by
        rw [List.filter_eq_nil_iff]
        intro a ha
        simp [Ne.symm (hd.1 a ha)]
      unfold neighbors
      rw [List.filter_cons, if_pos (by simp), hnil]
      rfl
    · have hne : x.source ≠ e.source := hd.1 e hmem
      unfold neighbors at ih ⊢
      rw [List.filter_cons, if_neg (by simp [hne])]
      exact ih hd.2 hmem

theorem bfsLoop_empty_queue (edges : List FlowEdge) (fuel : Nat)
    (visited : List NodeId) : bfsLoop edges fuel [] visited = visited := by
  cases fuel <;> rfl

theorem bfsLoop_sound (edges : List FlowEdge) :
    ∀ (fuel : Nat) (queue visited : List NodeId) (n : NodeId),
      n ∈ bfsLoop edges fuel queue visited →
      n ∈ visited ∨ ∃ a ∈ queue, Reaches edges a n := by
  intro fuel
  induction fuel with
  | zero => exact fun queue visited n hn => Or.inl hn
  | succ fuel ih =>
    intro queue visited n hn
    cases queue with
    | nil => exact Or.inl hn
    | cons current rest =>
      rw [bfsLoop] at hn
      rcases ih _ _ n hn with hv | ⟨a, ha, hr⟩
      · by_cases hc : visited.contains current = true
        · rw [if_pos hc] at hv
          exact Or.inl hv
        · rw [if_neg hc] at hv
          rcases List.mem_append.mp hv with hv | hv
          · exact Or.inl hv
          · rw [List.mem_singleton] at hv
            exact Or.inr ⟨current, List.mem_cons_self _ _,
              by rw [hv]; exact Reaches.refl current⟩
      · rcases List.mem_append.mp ha with ha | ha
        · exact Or.inr ⟨a, List.mem_cons_of_mem _ ha, hr⟩
        · have ha' : a ∈ neighbors edges current := List.mem_of_mem_filter ha
          have hedge := edge_of_mem_neighbors ha'
          refine Or.inr ⟨current, List.mem_cons_self _ _, ?_⟩
          exact Reaches.trans (Reaches.tail (Reaches.refl current) hedge) hr

theorem bfsLoop_closed (edges : List FlowEdge) (U : List NodeId)
    (hd : SourcesDistinct edges)
    (hT : ∀ e ∈ edges, e.target ∈ U) :
    ∀ (fuel : Nat) (a : NodeId) (visited : List NodeId),
      a ∈ U → visited ⊆ U → visited.Nodup → a ∉ visited →
      U.length + 1 ≤ fuel + visited.length →
      visited ⊆ bfsLoop edges fuel [a] visited ∧
      a ∈ bfsLoop edges fuel [a] visited ∧
      (∀ b ∈ bfsLoop edges fuel [a] visited, b ∉ visited →
        ∀ e ∈ edges, e.source = b →
          e.target ∈ bfsLoop edges fuel [a] visited) := by
  intro fuel
  induction fuel with
  | zero =>
    intro a visited haU hvU hnd hna hfuel
    exfalso
    have h1 : (a :: visited).Nodup := List.nodup_cons.mpr ⟨hna, hnd⟩
    have h2 : (a :: visited) ⊆ U := by
      intro x hx
      rcases List.mem_cons.mp hx with rfl | hx
      · exact haU
      · exact hvU hx
    have h3 := (h1.subperm h2).length_le
    rw [List.length_cons] at h3
    omega
  | succ fuel ih =>
    intro a visited haU hvU hnd hna hfuel
    have hnd' : (visited ++ [a]).Nodup := by
      rw [List.nodup_append]
      refine ⟨hnd, List.nodup_singleton _, ?_⟩
      intro x hx hxa
      rw [List.mem_singleton] at hxa
      subst hxa
      exact hna hx
    have hvU' : (visited ++ [a]) ⊆ U := by
      intro x hx
      rcases List.mem_append.mp hx with hx | hx
      · exact hvU hx
      · rw [List.mem_singleton] at hx
        subst hx
        exact haU
    have hstep : bfsLoop edges (fuel + 1) [a] visited =
        bfsLoop edges fuel
          ((neighbors edges a).filter (fun n => !(visited ++ [a]).contains n))
          (visited ++ [a]) := by
      conv_lhs => rw [bfsLoop]
      rw [if_neg (by simp [hna])]
      rw [List.nil_append]
    rw [hstep]
    by_cases hout : ∃ e ∈ edges, e.source = a
    · obtain ⟨e, he, hesrc⟩ := hout
      have hnb : neighbors edges a = [e.target] := by
        rw [← hesrc]
        exact neighbors_eq_of_mem hd he
      rw [hnb]
      by_cases ht : e.target ∈ visited ++ [a]
      · have hfil : ([e.target].filter
            (fun n => !(visited ++ [a]).contains n)) = [] := by
          rcases List.mem_append.mp ht with h | h
          · simp [h]
          · rw [List.mem_singleton] at h
            simp [h]
        rw [hfil, bfsLoop_empty_queue]
        refine ⟨fun x hx => List.mem_append_left _ hx,
          List.mem_append_right _ (List.mem_singleton.mpr rfl), ?_⟩
        intro b hb hbnv e2 he2 he2src
        rcases List.mem_append.mp hb with hbv | hba
        · exact absurd hbv hbnv
        · rw [List.mem_singleton] at hba
          subst hba
          have hnb2 : neighbors edges b = [e2.target] := by
            rw [← he2src]
            exact neighbors_eq_of_mem hd he2
          have htgt : e2.target = e.target := by
            rw [hnb2] at hnb
            exact ((List.cons.injEq _ _ _ _).mp hnb).1
          rw [htgt]
          exact ht
      · have hfil : ([e.target].filter
            (fun n => !(visited ++ [a]).contains n)) = [e.target] := by
          have h1 : e.target ∉ visited := fun h => ht (List.mem_append_left _ h)
          have h2 : e.target ≠ a := by
            intro h
            exact ht (List.mem_append_right _ (List.mem_singleton.mpr h))
          simp [h1, h2]
        rw [hfil]
        have hlen : (visited ++ [a]).length = visited.length + 1 := by
          rw [List.length_append]
          rfl
        obtain ⟨ihsub, ihmem, ihcl⟩ := ih e.target (visited ++ [a])
          (hT e he) hvU' hnd' ht (by omega)
        refine ⟨?_, ?_, ?_⟩
        · intro x hx
          exact ihsub (List.mem_append_left _ hx)
        · exact ihsub (List.mem_append_right _ (List.mem_singleton.mpr rfl))
        · intro b hb hbnv e2 he2 he2src
          by_cases hbv' : b ∈ visited ++ [a]
          · rcases List.mem_append.mp hbv' with h1 | h1
            · exact absurd h1 hbnv
            · rw [List.mem_singleton] at h1
              subst h1
              have hnb2 : neighbors edges b = [e2.target] := by
                rw [← he2src]
                exact neighbors_eq_of_mem hd he2
              have htgt : e2.target = e.target := by
                rw [hnb2] at hnb
                exact ((List.cons.injEq _ _ _ _).mp hnb).1
              rw [htgt]
              exact ihmem
          · exact ihcl b hb hbv' e2 he2 he2src
    · have hnb : neighbors edges a = [] := by
        unfold neighbors
        rw [List.map_eq_nil_iff, List.filter_eq_nil_iff]
        intro e he hsrc
        exact hout ⟨e, he, by simpa using hsrc⟩
      rw [hnb, List.filter_nil, bfsLoop_empty_queue]
      refine ⟨fun x hx => List.mem_append_left _ hx,
        List.mem_append_right _ (List.mem_singleton.mpr rfl), ?_⟩
      intro b hb hbnv e2 he2 he2src
      exfalso
      rcases List.mem_append.mp hb with hbv | hba
      · exact hbnv hbv
      · rw [List.mem_singleton] at hba
        subst hba
        exact hout ⟨e2, he2, he2src⟩

theorem bfsLoop_visited_iff (edges : List FlowEdge) (root n : NodeId)
    (hd : SourcesDistinct edges) (fuel : Nat)
    (hfuel : edges.length + 2 ≤ fuel) :
    n ∈ bfsLoop edges fuel [root] [] ↔ Reaches edges root n := by
  constructor
  · intro hn
    rcases bfsLoop_sound edges fuel [root] [] n hn with h | ⟨a, ha, hr⟩
    · cases h
    · rw [List.mem_singleton] at ha
      subst ha
      exact hr
  · intro hr
    have hU : ∀ e ∈ edges, e.target ∈ root :: edges.map (fun e => e.target) :=
      fun e he => List.mem_cons_of_mem _ (List.mem_map.mpr ⟨e, he, rfl⟩)
    obtain ⟨-, hmem, hclosure⟩ :=
      bfsLoop_closed edges (root :: edges.map (fun e => e.target)) hd hU
        fuel root [] (List.mem_cons_self _ _)
        (fun x hx => absurd hx (List.not_mem_nil x)) List.nodup_nil
        (List.not_mem_nil _)
        (by rw [List.length_cons, List.length_map]; omega)
    induction hr with
    | refl => exact hmem
    | tail _ h2 ih => exact hclosure _ ih (List.not_mem_nil _) _ h2 rfl

theorem find?_split {α : Type} (p : α → Bool) :
    ∀ (l : List α) (a : α), l.find? p = some a →
      ∃ pre post, l = pre ++ a :: post ∧ ∀ x ∈ pre, p x = false := by
  intro l
  induction l with
  | nil =>
    intro a h
    simp [List.find?] at h
  | cons x xs ih =>
    intro a h
    rw [List.find?] at h
    by_cases hx : p x = true
    · rw [hx] at h
      simp at h
      exact ⟨[], xs, by simp [h], by simp⟩
    · have hx' : p x = false := by
        simp only [Bool.not_eq_true] at hx
        exact hx
      rw [hx'] at h
      simp at h
      obtain ⟨pre, post, rfl, hpre⟩ := ih a h
      refine ⟨x :: pre, post, by simp, ?_⟩
      intro y hy
      rcases List.mem_cons.mp hy with rfl | hy
      · exact hx'
      · exact hpre y hy

theorem validate_root_case (nodes : List FlowNode) (edges : List FlowEdge)
    (root : NodeId) (h2 : 2 ≤ nodes.length)
    (hroot : (nodes.map (fun n => n.id)).find?
      (fun id => !(edges.map (fun e => e.target)).contains id) = some root) :
    validate nodes edges =
      (if 0 < ((nodes.map (fun n => n.id)).filter
          (fun id => !(bfsLoop edges (nodes.length + edges.length + 1)
            [root] []).contains id)).length then
        .Disconnected
          ((nodes.map (fun n => n.id)).filter
            (fun id => !(bfsLoop edges (nodes.length + edges.length + 1)
              [root] []).contains id)).length
          ((nodes.map (fun n => n.id)).filter
            (fun id => !(bfsLoop edges (nodes.length + edges.length + 1)
              [root] []).contains id))
      else .Valid) := by
  unfold validate
  rw [if_neg (by omega)]
  simp only [hroot]

/-! ### C3 -/

/-- C3: with at least two nodes, a discovered root candidate, and the
engine edge invariant of pairwise distinct sources, the save time
validation is Valid exactly when every node is reachable from the chosen
root along edges in source to target direction; a Disconnected result
carries exactly the ids of the unreachable nodes together with their
count, and some unreachable node forces a Disconnected result. -/
theorem validate_bfs_reachability (nodes : List FlowNode)
    (edges : List FlowEdge) (root : NodeId)
    (hd : SourcesDistinct edges) (h2 : 2 ≤ nodes.length)
    (hroot : (nodes.map (fun n => n.id)).find?
      (fun id => !(edges.map (fun e => e.target)).contains id) = some root) :
    (validate nodes edges = .Valid ↔
      ∀ n ∈ nodes, Reaches edges root n.id) ∧
    (∀ c ids, validate nodes edges = .Disconnected c ids →
      c = ids.length ∧
      ∀ i, i ∈ ids ↔ i ∈ nodes.map (fun n => n.id) ∧
        ¬ Reaches edges root i) ∧
    ((¬ ∀ n ∈ nodes, Reaches edges root n.id) →
      ∃ c ids, validate nodes edges = .Disconnected c ids) := by
  have hval := validate_root_case nodes edges root h2 hroot
  have hiff : ∀ i, i ∈ bfsLoop edges (nodes.length + edges.length + 1)
      [root] [] ↔ Reaches edges root i :=
    fun i => bfsLoop_visited_iff edges root i hd _ (by omega)
  have hmemD : ∀ i, (i ∈ (nodes.map (fun n => n.id)).filter
      (fun id => !(bfsLoop edges (nodes.length + edges.length + 1)
        [root] []).contains id)) ↔
      (i ∈ nodes.map (fun n => n.id) ∧ ¬ Reaches edges root i) := by
    intro i
    rw [List.mem_filter]
    constructor
    · rintro ⟨h1, hpred⟩
      refine ⟨h1, ?_⟩
      intro hr
      rw [Bool.not_eq_true'] at hpred
      exact (contains_false_iff_not_mem.mp hpred) ((hiff i).mpr hr)
    · rintro ⟨h1, hnr⟩
      refine ⟨h1, ?_⟩
      rw [Bool.not_eq_true', contains_false_iff_not_mem]
      intro hmem
      exact hnr ((hiff i).mp hmem)
  by_cases hpos : 0 < ((nodes.map (fun n => n.id)).filter
      (fun id => !(bfsLoop edges (nodes.length + edges.length + 1)
        [root] []).contains id)).length
  · rw [if_pos hpos] at hval
    refine ⟨?_, ?_, ?_⟩
    · constructor
      · intro hv
        rw [hval] at hv
        cases hv
      · intro hall
        exfalso
        obtain ⟨i, hi⟩ := List.exists_mem_of_length_pos hpos
        obtain ⟨h1, hnr⟩ := (hmemD i).mp hi
        rw [List.mem_map] at h1
        obtain ⟨m, hm, rfl⟩ := h1
        exact hnr (hall m hm)
    · intro c ids heq
      rw [hval] at heq
      injection heq with hc hids
      subst hc
      subst hids
      exact ⟨rfl, hmemD⟩
    · intro _
      exact ⟨_, _, hval⟩
  · rw [if_neg hpos] at hval
    have hD : ((nodes.map (fun n => n.id)).filter
        (fun id => !(bfsLoop edges (nodes.length + edges.length + 1)
          [root] []).contains id)) = [] := by
      rw [← List.length_eq_zero]
      omega
    have hall : ∀ n ∈ nodes, Reaches edges root n.id := by
      intro n hn
      by_contra hnr
      have : n.id ∈ ((nodes.map (fun n => n.id)).filter
          (fun id => !(bfsLoop edges (nodes.length + edges.length + 1)
            [root] []).contains id)) :=
        (hmemD n.id).mpr ⟨List.mem_map.mpr ⟨n, hn, rfl⟩, hnr⟩
      rw [hD] at this
      exact List.not_mem_nil _ this
    refine ⟨⟨fun _ => hall, fun _ => hval⟩, ?_, ?_⟩
    · intro c ids heq
      rw [hval] at heq
      cases heq
    · intro hnall
      exact absurd hall hnall

/-- Witness for C3, scenario B: three nodes with the single edge from
the first to the second; the third node is unreachable and is reported
as the single disconnected id. -/
theorem validate_bfs_reachability_witness :
    SourcesDistinct
      [{ source := ⟨0, 1⟩, target := ⟨0, 2⟩ }] ∧
    2 ≤ ([{ id := ⟨0, 1⟩, data := ⟨"a", 1⟩ },
          { id := ⟨0, 2⟩, data := ⟨"b", 2⟩ },
          { id := ⟨0, 3⟩, data := ⟨"c", 3⟩ }] : List FlowNode).length ∧
    (([{ id := ⟨0, 1⟩, data := ⟨"a", 1⟩ },
       { id := ⟨0, 2⟩, data := ⟨"b", 2⟩ },
       { id := ⟨0, 3⟩, data := ⟨"c", 3⟩ }] : List FlowNode).map
        (fun n => n.id)).find?
      (fun id =>
        !(([{ source := ⟨0, 1⟩, target := ⟨0, 2⟩ }] : List FlowEdge).map
          (fun e => e.target)).contains id) = some ⟨0, 1⟩ ∧
    (validate
      [{ id := ⟨0, 1⟩, data := ⟨"a", 1⟩ }, { id := ⟨0, 2⟩, data := ⟨"b", 2⟩ },
       { id := ⟨0, 3⟩, data := ⟨"c", 3⟩ }]
      [{ source := ⟨0, 1⟩, target := ⟨0, 2⟩ }] = .Valid ↔
      ∀ n ∈ ([{ id := ⟨0, 1⟩, data := ⟨"a", 1⟩ },
              { id := ⟨0, 2⟩, data := ⟨"b", 2⟩ },
              { id := ⟨0, 3⟩, data := ⟨"c", 3⟩ }] : List FlowNode),
        Reaches [{ source := ⟨0, 1⟩, target := ⟨0, 2⟩ }] ⟨0, 1⟩ n.id) ∧
    validate
      [{ id := ⟨0, 1⟩, data := ⟨"a", 1⟩ }, { id := ⟨0, 2⟩, data := ⟨"b", 2⟩ },
       { id := ⟨0, 3⟩, data := ⟨"c", 3⟩ }]
      [{ source := ⟨0, 1⟩, target := ⟨0, 2⟩ }] =
      .Disconnected 1 [⟨0, 3⟩] :=
  ⟨by decide, by decide, by decide,
   (validate_bfs_reachability _ _ ⟨0, 1⟩ (by decide) (by decide) (by decide)).1,
   by decide⟩

/-! ### C7 -/

/-- C7: with at least two nodes the BFS origin is the first root
candidate in node store order: the nodes before it in the store all
occur as targets, and any further root candidate is reported among the
disconnected ids, because only the chosen root and edge targets can ever
be visited. -/
theorem validate_first_root_origin (nodes : List FlowNode)
    (edges : List FlowEdge) (root r2 : NodeId)
    (h2 : 2 ≤ nodes.length)
    (hroot : (nodes.map (fun n => n.id)).find?
      (fun id => !(edges.map (fun e => e.target)).contains id) = some root)
    (hr2mem : r2 ∈ nodes.map (fun n => n.id))
    (hr2tgt : r2 ∉ edges.map (fun e => e.target))
    (hne : r2 ≠ root) :
    (∃ pre post, nodes.map (fun n => n.id) = pre ++ root :: post ∧
      ∀ x ∈ pre, x ∈ edges.map (fun e => e.target)) ∧
    (∃ c ids, validate nodes edges = .Disconnected c ids ∧ r2 ∈ ids) := by
  constructor
  · obtain ⟨pre, post, heq, hpre⟩ := find?_split _ _ _ hroot
    refine ⟨pre, post, heq, ?_⟩
    intro x hx
    have hc := hpre x hx
    rw [Bool.not_eq_false'] at hc
    exact contains_true_iff_mem.mp hc
  · have hr2nv : r2 ∉ bfsLoop edges (nodes.length + edges.length + 1)
        [root] [] := by
      intro hmem
      rcases bfsLoop_sound edges _ _ _ r2 hmem with h | ⟨a, ha, hr⟩
      · exact List.not_mem_nil _ h
      · rw [List.mem_singleton] at ha
        subst ha
        rcases hr.eq_or_mem_targets with h | h
        · exact hne h
        · exact hr2tgt h
    have hr2D : r2 ∈ (nodes.map (fun n => n.id)).filter
        (fun id => !(bfsLoop edges (nodes.length + edges.length + 1)
          [root] []).contains id) := by
      rw [List.mem_filter]
      refine ⟨hr2mem, ?_⟩
      rw [Bool.not_eq_true', contains_false_iff_not_mem]
      exact hr2nv
    have hpos : 0 < ((nodes.map (fun n => n.id)).filter
        (fun id => !(bfsLoop edges (nodes.length + edges.length + 1)
          [root] []).contains id)).length :=
      List.length_pos_of_mem hr2D
    have hval := validate_root_case nodes edges root h2 hroot
    rw [if_pos hpos] at hval
    exact ⟨_, _, hval, hr2D⟩

/-- Witness for C7: four nodes with edges from the first to the second
and from the third to the fourth; the first and third nodes are both
root candidates, the first is chosen, and the third, reachable only from
itself, is reported disconnected. -/
theorem validate_first_root_origin_witness :
    2 ≤ ([{ id := ⟨0, 1⟩, data := ⟨"a", 1⟩ },
          { id := ⟨0, 2⟩, data := ⟨"b", 2⟩ },
          { id := ⟨0, 3⟩, data := ⟨"c", 3⟩ },
          { id := ⟨0, 4⟩, data := ⟨"d", 4⟩ }] : List FlowNode).length ∧
    (([{ id := ⟨0, 1⟩, data := ⟨"a", 1⟩ },
       { id := ⟨0, 2⟩, data := ⟨"b", 2⟩ },
       { id := ⟨0, 3⟩, data := ⟨"c", 3⟩ },
       { id := ⟨0, 4⟩, data := ⟨"d", 4⟩ }] : List FlowNode).map
        (fun n => n.id)).find?
      (fun id =>
        !(([{ source := ⟨0, 1⟩, target := ⟨0, 2⟩ },
            { source := ⟨0, 3⟩, target := ⟨0, 4⟩ }] : List FlowEdge).map
          (fun e => e.target)).contains id) = some ⟨0, 1⟩ ∧
    (⟨0, 3⟩ : NodeId) ∉
      ([{ source := ⟨0, 1⟩, target := ⟨0, 2⟩ },
        { source := ⟨0, 3⟩, target := ⟨0, 4⟩ }] : List FlowEdge).map
        (fun e => e.target) ∧
    (∃ c ids, validate
      [{ id := ⟨0, 1⟩, data := ⟨"a", 1⟩ }, { id := ⟨0, 2⟩, data := ⟨"b", 2⟩ },
       { id := ⟨0, 3⟩, data := ⟨"c", 3⟩ }, { id := ⟨0, 4⟩, data := ⟨"d", 4⟩ }]
      [{ source := ⟨0, 1⟩, target := ⟨0, 2⟩ },
       { source := ⟨0, 3⟩, target := ⟨0, 4⟩ }] = .Disconnected c ids ∧
      (⟨0, 3⟩ : NodeId) ∈ ids) ∧
    validate
      [{ id := ⟨0, 1⟩, data := ⟨"a", 1⟩ }, { id := ⟨0, 2⟩, data := ⟨"b", 2⟩ },
       { id := ⟨0, 3⟩, data := ⟨"c", 3⟩ }, { id := ⟨0, 4⟩, data := ⟨"d", 4⟩ }]
      [{ source := ⟨0, 1⟩, target := ⟨0, 2⟩ },
       { source := ⟨0, 3⟩, target := ⟨0, 4⟩ }] =
      .Disconnected 2 [⟨0, 3⟩, ⟨0, 4⟩] :=
  ⟨by decide, by decide, by decide,
   (validate_first_root_origin _ _ ⟨0, 1⟩ ⟨0, 3⟩ (by decide) (by decide)
     (by decide) (by decide) (by decide)).2,
   by decide⟩
